import Mathlib

/-!
Verification development for the diffusors repository: a shallow embedding of
the semi-supervised diffusion training loop (segmentation_diffuser_one.py,
segmentation_diffuser_two.py), the custom scheduler wrapper (scheduler.py) and
the Dice+cross-entropy loss (loss_function/dice_loss.py), together with
theorems settling the frozen claims about them.

Tensors are embedded as nested lists of reals: a batch tensor is a
List (List ℝ), one inner list per sample (spatial dimensions flattened).
The denoising networks are black boxes in the source design and are taken as
function parameters throughout.
-/

namespace Diffusors

/- ## Noise scheduler

The repository instantiates diffusers.DDPMScheduler with
beta_schedule="squaredcos_cap_v2" (segmentation_diffuser_one.py line 279,
segmentation_diffuser_two.py lines 345-347).  The scheduler implementation
itself is library code that is not under src/, so it is modelled from the
spec here. -/

/-- Modelled from the spec: the squared-cosine alpha-bar curve of the
"squaredcos_cap_v2" beta schedule used by the DDPMScheduler constructed in
both training modules; the implementation is in the diffusers library, not
under src/. -/
noncomputable def alphaBar (T t : ℕ) : ℝ :=
  Real.cos ((((t : ℝ) / (T : ℝ) + 0.008) / 1.008) * (Real.pi / 2)) ^ 2

/-- Modelled from the spec: per-timestep beta of the squared-cosine-capped
schedule, truncated at 0.999. -/
noncomputable def betas (T t : ℕ) : ℝ :=
  min (1 - alphaBar T (t + 1) / alphaBar T t) 0.999

/-- Per-timestep alpha, one minus beta. -/
noncomputable def alphas (T t : ℕ) : ℝ := 1 - betas T t

/-- Modelled from the spec: the precomputed cumulative-alpha table of the
noise scheduler, entry t being the product of alphas up to and including t. -/
noncomputable def alphasCumprod (T t : ℕ) : ℝ :=
  ∏ s ∈ Finset.range (t + 1), alphas T s

/-- Modelled from the spec: the scalar (per-element) action of
add_noise: sqrt(alpha_cumprod[t]) * clean + sqrt(1 - alpha_cumprod[t]) * noise. -/
noncomputable def addNoiseVal (T t : ℕ) (c n : ℝ) : ℝ :=
  Real.sqrt (alphasCumprod T t) * c + Real.sqrt (1 - alphasCumprod T t) * n

/-- add_noise on one sample: elementwise over the flattened sample, a single
timestep for the whole sample. -/
noncomputable def addNoiseSample (T t : ℕ) (clean noise : List ℝ) : List ℝ :=
  List.zipWith (addNoiseVal T t) clean noise

/-- Modelled from the spec: batched add_noise, the per-sample schedule
coefficient selected by that sample's timestep and broadcast over the
sample's elements. -/
noncomputable def addNoiseB (T : ℕ) (clean noise : List (List ℝ))
    (ts : List ℕ) : List (List ℝ) :=
  List.zipWith (fun cn t => addNoiseSample T t cn.1 cn.2) (clean.zip noise) ts

/-- Modelled from the spec: one reverse-diffusion update of the scheduler
(deterministic part): from the model's noise prediction m at timestep t and
the current sample s, form the predicted original sample and combine it with
s using the standard DDPM posterior-mean coefficients, yielding the estimate
for timestep t - 1 (with cumulative alpha 1 below timestep 0). -/
noncomputable def stepRevVal (T t : ℕ) (m s : ℝ) : ℝ :=
  let acp := alphasCumprod T t
  let acpPrev := if t = 0 then 1 else alphasCumprod T (t - 1)
  let predOrig := (s - Real.sqrt (1 - acp) * m) / Real.sqrt acp
  let c1 := Real.sqrt acpPrev * betas T t / (1 - acp)
  let c2 := Real.sqrt (alphas T t) * (1 - acpPrev) / (1 - acp)
  c1 * predOrig + c2 * s

/-- Iterated reverse updates from timestep t down to 0, each with zero model
output (the true residual when no noise was injected). -/
noncomputable def denoiseChain (T : ℕ) : ℕ → ℝ → ℝ
  | 0, s => stepRevVal T 0 0 s
  | t + 1, s => denoiseChain T t (stepRevVal T (t + 1) 0 s)

/- ### Schedule facts -/

lemma alphaBar_nonneg (T t : ℕ) : 0 ≤ alphaBar T t := sq_nonneg _

/-- The angle argument of the cosine, convenient abbreviation. -/
noncomputable def schedAngle (T t : ℕ) : ℝ :=
  (((t : ℝ) / (T : ℝ) + 0.008) / 1.008) * (Real.pi / 2)

lemma alphaBar_eq (T t : ℕ) : alphaBar T t = Real.cos (schedAngle T t) ^ 2 := rfl

lemma schedAngle_nonneg (T t : ℕ) : 0 ≤ schedAngle T t := by
  have hpi : (0 : ℝ) ≤ Real.pi / 2 := by positivity
  have ht : (0 : ℝ) ≤ (t : ℝ) / (T : ℝ) := by positivity
  have : (0 : ℝ) ≤ ((t : ℝ) / (T : ℝ) + 0.008) / 1.008 := by positivity
  exact mul_nonneg this hpi

lemma schedAngle_le_half_pi {T t : ℕ} (hT : 1 ≤ T) (ht : t ≤ T) :
    schedAngle T t ≤ Real.pi / 2 := by
  have hT0 : (0 : ℝ) < (T : ℝ) := by exact_mod_cast hT
  have hdiv : (t : ℝ) / (T : ℝ) ≤ 1 := by
    rw [div_le_one hT0]; exact_mod_cast ht
  have h1 : ((t : ℝ) / (T : ℝ) + 0.008) / 1.008 ≤ 1 := by
    rw [div_le_one (by norm_num : (0 : ℝ) < 1.008)]; linarith
  have hpi : (0 : ℝ) ≤ Real.pi / 2 := by positivity
  calc schedAngle T t ≤ 1 * (Real.pi / 2) :=
        mul_le_mul_of_nonneg_right h1 hpi
    _ = Real.pi / 2 := one_mul _

lemma schedAngle_mono {T s t : ℕ} (hT : 1 ≤ T) (hst : s ≤ t) :
    schedAngle T s ≤ schedAngle T t := by
  have hT0 : (0 : ℝ) < (T : ℝ) := by exact_mod_cast hT
  have hdiv : (s : ℝ) / (T : ℝ) ≤ (t : ℝ) / (T : ℝ) := by
    apply div_le_div_of_nonneg_right ?_ hT0.le
    exact_mod_cast hst
  have hpi : (0 : ℝ) ≤ Real.pi / 2 := by positivity
  apply mul_le_mul_of_nonneg_right ?_ hpi
  apply div_le_div_of_nonneg_right ?_ (by norm_num : (0 : ℝ) ≤ 1.008)
  linarith

lemma schedAngle_strict_mono {T s t : ℕ} (hT : 1 ≤ T) (hst : s < t) :
    schedAngle T s < schedAngle T t := by
  have hT0 : (0 : ℝ) < (T : ℝ) := by exact_mod_cast hT
  have hdiv : (s : ℝ) / (T : ℝ) < (t : ℝ) / (T : ℝ) := by
    apply div_lt_div_of_pos_right ?_ hT0
    exact_mod_cast hst
  have hpi : (0 : ℝ) < Real.pi / 2 := by positivity
  apply mul_lt_mul_of_pos_right ?_ hpi
  apply div_lt_div_of_pos_right ?_ (by norm_num : (0 : ℝ) < 1.008)
  linarith

lemma cos_schedAngle_nonneg {T t : ℕ} (hT : 1 ≤ T) (ht : t ≤ T) :
    0 ≤ Real.cos (schedAngle T t) := by
  apply Real.cos_nonneg_of_mem_Icc
  constructor
  · linarith [schedAngle_nonneg T t, Real.pi_pos]
  · exact schedAngle_le_half_pi hT ht

/-- The alpha-bar curve is non-increasing on [0, T]. -/
lemma alphaBar_anti {T s t : ℕ} (hT : 1 ≤ T) (hst : s ≤ t) (ht : t ≤ T) :
    alphaBar T t ≤ alphaBar T s := by
  have hs : s ≤ T := le_trans hst ht
  have hcs : 0 ≤ Real.cos (schedAngle T t) := cos_schedAngle_nonneg hT ht
  have hcos : Real.cos (schedAngle T t) ≤ Real.cos (schedAngle T s) := by
    apply Real.cos_le_cos_of_nonneg_of_le_pi (schedAngle_nonneg T s)
    · linarith [schedAngle_le_half_pi hT ht, Real.pi_pos]
    · exact schedAngle_mono hT hst
  rw [alphaBar_eq, alphaBar_eq]
  exact pow_le_pow_left₀ hcs hcos 2

lemma alphaBar_pos {T t : ℕ} (hT : 1 ≤ T) (ht : t < T) : 0 < alphaBar T t := by
  have hcos : 0 < Real.cos (schedAngle T t) := by
    apply Real.cos_pos_of_mem_Ioo
    constructor
    · linarith [schedAngle_nonneg T t, Real.pi_pos]
    · calc schedAngle T t < schedAngle T T := schedAngle_strict_mono hT ht
        _ ≤ Real.pi / 2 := schedAngle_le_half_pi hT le_rfl
  rw [alphaBar_eq]
  positivity

/-- The first beta is strictly positive for T ≥ 1. -/
lemma betas_zero_pos {T : ℕ} (hT : 1 ≤ T) : 0 < betas T 0 := by
  have h0 : 0 < alphaBar T 0 := alphaBar_pos hT (by omega)
  have h01 : alphaBar T 1 < alphaBar T 0 := by
    have hcs : 0 ≤ Real.cos (schedAngle T 1) :=
      cos_schedAngle_nonneg hT (by omega)
    have hc0 : 0 < Real.cos (schedAngle T 0) := by
      have := alphaBar_pos hT (by omega : 0 < T)
      rw [alphaBar_eq] at this
      rcases (cos_schedAngle_nonneg hT (by omega : 0 ≤ T)).lt_or_eq with h | h
      · exact h
      · exfalso; rw [← h] at this; simp at this
    have hcos : Real.cos (schedAngle T 1) < Real.cos (schedAngle T 0) := by
      have hmem0 : schedAngle T 0 ∈ Set.Icc 0 Real.pi :=
        ⟨schedAngle_nonneg T 0,
          by linarith [schedAngle_le_half_pi hT (Nat.zero_le T), Real.pi_pos]⟩
      have hmem1 : schedAngle T 1 ∈ Set.Icc 0 Real.pi :=
        ⟨schedAngle_nonneg T 1,
          by linarith [schedAngle_le_half_pi hT hT, Real.pi_pos]⟩
      exact Real.strictAntiOn_cos hmem0 hmem1 (schedAngle_strict_mono hT one_pos)
    rw [alphaBar_eq, alphaBar_eq]
    have h2 : Real.cos (schedAngle T 1) ^ 2 ≤
        Real.cos (schedAngle T 1) * Real.cos (schedAngle T 0) := by
      rw [sq]
      exact mul_le_mul_of_nonneg_left hcos.le hcs
    have h3 : Real.cos (schedAngle T 1) * Real.cos (schedAngle T 0) <
        Real.cos (schedAngle T 0) ^ 2 := by
      rw [sq]
      exact mul_lt_mul_of_pos_right hcos hc0
    linarith
  have hdr : alphaBar T 1 / alphaBar T 0 < 1 := (div_lt_one h0).mpr h01
  unfold betas
  apply lt_min (by linarith) (by norm_num)

/-- Betas are nonnegative for timesteps below T. -/
lemma betas_nonneg {T t : ℕ} (hT : 1 ≤ T) (ht : t < T) : 0 ≤ betas T t := by
  have hdr : alphaBar T (t + 1) / alphaBar T t ≤ 1 := by
    rcases eq_or_lt_of_le (alphaBar_nonneg T t) with h | h
    · rw [← h, div_zero]; norm_num
    · rw [div_le_one h]
      exact alphaBar_anti hT (Nat.le_succ t) (by omega)
  unfold betas
  apply le_min (by linarith) (by norm_num)

lemma betas_le (T t : ℕ) : betas T t ≤ 0.999 := min_le_right _ _

lemma alphas_pos (T t : ℕ) : 0 < alphas T t := by
  have := betas_le T t
  unfold alphas
  linarith

lemma alphas_le_one {T t : ℕ} (hT : 1 ≤ T) (ht : t < T) : alphas T t ≤ 1 := by
  have := betas_nonneg hT ht
  unfold alphas
  linarith

lemma alphas_zero_lt_one {T : ℕ} (hT : 1 ≤ T) : alphas T 0 < 1 := by
  have := betas_zero_pos hT
  unfold alphas
  linarith

lemma alphasCumprod_pos (T t : ℕ) : 0 < alphasCumprod T t :=
  Finset.prod_pos fun s _ => alphas_pos T s

lemma alphasCumprod_succ (T t : ℕ) :
    alphasCumprod T (t + 1) = alphasCumprod T t * alphas T (t + 1) :=
  Finset.prod_range_succ _ _

lemma alphasCumprod_zero (T : ℕ) : alphasCumprod T 0 = alphas T 0 := by
  unfold alphasCumprod
  simp

lemma alphasCumprod_lt_one {T t : ℕ} (ht : t < T) : alphasCumprod T t < 1 := by
  have hT : 1 ≤ T := by omega
  have hsh : alphasCumprod T t =
      (∏ s ∈ Finset.range t, alphas T (s + 1)) * alphas T 0 := by
    unfold alphasCumprod
    exact Finset.prod_range_succ' (fun s => alphas T s) t
  have htail : (∏ s ∈ Finset.range t, alphas T (s + 1)) ≤ 1 := by
    apply Finset.prod_le_one
    · intro s _
      exact (alphas_pos T (s + 1)).le
    · intro s hs
      have : s + 1 < T := by
        have := Finset.mem_range.mp hs
        omega
      exact alphas_le_one hT this
  have htail0 : 0 ≤ ∏ s ∈ Finset.range t, alphas T (s + 1) :=
    Finset.prod_nonneg fun s _ => (alphas_pos T (s + 1)).le
  have ha0 : 0 < alphas T 0 := alphas_pos T 0
  calc alphasCumprod T t = (∏ s ∈ Finset.range t, alphas T (s + 1)) * alphas T 0 := hsh
    _ ≤ 1 * alphas T 0 := mul_le_mul_of_nonneg_right htail ha0.le
    _ = alphas T 0 := one_mul _
    _ < 1 := alphas_zero_lt_one hT

/- ### Claim C5: the cumulative-alpha table is monotonically non-increasing -/

/-- C5: the precomputed cumulative-alpha table of the noise scheduler, built
with the squared-cosine-capped beta schedule over T timesteps, is
monotonically non-increasing: for every s ≤ t < T,
alphasCumprod[s] ≥ alphasCumprod[t]. -/
theorem alphasCumprod_antitone {T s t : ℕ} (hst : s ≤ t) (ht : t < T) :
    alphasCumprod T t ≤ alphasCumprod T s := by
  have hT : 1 ≤ T := by omega
  have hsplit :
      alphasCumprod T s * (∏ u ∈ Finset.Ico (s + 1) (t + 1), alphas T u) =
        alphasCumprod T t :=
    Finset.prod_range_mul_prod_Ico (fun u => alphas T u) (by omega)
  have htail : (∏ u ∈ Finset.Ico (s + 1) (t + 1), alphas T u) ≤ 1 := by
    apply Finset.prod_le_one
    · intro u _
      exact (alphas_pos T u).le
    · intro u hu
      have : u < T := by
        have := Finset.mem_Ico.mp hu
        omega
      exact alphas_le_one hT this
  calc alphasCumprod T t
      = alphasCumprod T s * (∏ u ∈ Finset.Ico (s + 1) (t + 1), alphas T u) :=
        hsplit.symm
    _ ≤ alphasCumprod T s * 1 :=
        mul_le_mul_of_nonneg_left htail (alphasCumprod_pos T s).le
    _ = alphasCumprod T s := mul_one _

/-- Witness for C5 at T = 2, s = 0, t = 1. -/
theorem alphasCumprod_antitone_witness :
    0 ≤ 1 ∧ 1 < 2 ∧ alphasCumprod 2 1 ≤ alphasCumprod 2 0 :=
  ⟨by decide, by decide, alphasCumprod_antitone (by decide) (by decide)⟩

/- ### Claim C4: zero-noise reverse round trip -/

/-- One reverse update with zero model output maps sqrt(acp t) * x to
sqrt(acp (t-1)) * x (with cumulative alpha 1 below timestep 0). -/
lemma stepRevVal_zero_noise {T t : ℕ} (hT : 1 ≤ T) (ht : t < T) (x : ℝ) :
    stepRevVal T t 0 (Real.sqrt (alphasCumprod T t) * x) =
      Real.sqrt (if t = 0 then 1 else alphasCumprod T (t - 1)) * x := by
  have hacp : 0 < alphasCumprod T t := alphasCumprod_pos T t
  have hacp1 : alphasCumprod T t < 1 := alphasCumprod_lt_one ht
  have hs : Real.sqrt (alphasCumprod T t) ≠ 0 :=
    ne_of_gt (Real.sqrt_pos.mpr hacp)
  have hD : (1 : ℝ) - alphasCumprod T t ≠ 0 := by linarith
  simp only [stepRevVal, mul_zero, sub_zero]
  rw [mul_comm (Real.sqrt (alphasCumprod T t)) x,
    mul_div_cancel_right₀ x hs]
  cases t with
  | zero =>
      have hb : betas T 0 = 1 - alphasCumprod T 0 := by
        rw [alphasCumprod_zero]
        unfold alphas
        ring
      rw [if_pos rfl, Real.sqrt_one, hb]
      field_simp
  | succ u =>
      simp only [Nat.succ_ne_zero, if_false, Nat.add_sub_cancel]
      have hPa : alphasCumprod T (u + 1) =
          alphasCumprod T u * alphas T (u + 1) := alphasCumprod_succ T u
      have hP : 0 < alphasCumprod T u := alphasCumprod_pos T u
      have ha : 0 < alphas T (u + 1) := alphas_pos T (u + 1)
      have hsqrtmul : Real.sqrt (alphasCumprod T (u + 1)) =
          Real.sqrt (alphasCumprod T u) * Real.sqrt (alphas T (u + 1)) := by
        rw [hPa]
        exact Real.sqrt_mul hP.le _
      have hsq : Real.sqrt (alphas T (u + 1)) * Real.sqrt (alphas T (u + 1)) =
          alphas T (u + 1) := Real.mul_self_sqrt ha.le
      have hb : betas T (u + 1) = 1 - alphas T (u + 1) := by
        unfold alphas
        ring
      rw [hsqrtmul, hb]
      field_simp
      linear_combination (1 - alphasCumprod T u) * Real.sqrt (alphasCumprod T u)
          * x * hsq + Real.sqrt (alphasCumprod T u) * x * hPa

/-- Iterating the reverse update with zero model output from t down to 0
recovers x from sqrt(acp t) * x. -/
lemma denoiseChain_sqrt {T : ℕ} (hT : 1 ≤ T) :
    ∀ t, t < T → ∀ x : ℝ,
      denoiseChain T t (Real.sqrt (alphasCumprod T t) * x) = x := by
  intro t
  induction t with
  | zero =>
      intro ht x
      show stepRevVal T 0 0 (Real.sqrt (alphasCumprod T 0) * x) = x
      rw [stepRevVal_zero_noise hT ht x]
      simp
  | succ u ih =>
      intro ht x
      show denoiseChain T u
        (stepRevVal T (u + 1) 0 (Real.sqrt (alphasCumprod T (u + 1)) * x)) = x
      rw [stepRevVal_zero_noise hT ht x]
      simp only [Nat.succ_ne_zero, if_false, Nat.add_sub_cancel]
      exact ih (by omega) x

/-- C4: for every timestep t in [0,T) and clean signal x, noising x by
add_noise at t with zero injected noise and then applying the scheduler's
reverse step repeatedly from t down to 0, each time with the true zero-noise
residual as the model output, reproduces x exactly. -/
theorem addNoise_denoiseChain_roundtrip {T t : ℕ} (ht : t < T) (x : ℝ) :
    denoiseChain T t (addNoiseVal T t x 0) = x := by
  have hT : 1 ≤ T := by omega
  have h0 : addNoiseVal T t x 0 = Real.sqrt (alphasCumprod T t) * x := by
    unfold addNoiseVal
    ring
  rw [h0]
  exact denoiseChain_sqrt hT t ht x

/-- Witness for C4 at T = 2, t = 1, x = 1/2. -/
theorem addNoise_denoiseChain_roundtrip_witness :
    1 < 2 ∧ denoiseChain 2 1 (addNoiseVal 2 1 (1 / 2) 0) = 1 / 2 :=
  ⟨by decide, addNoise_denoiseChain_roundtrip (by decide) (1 / 2)⟩

/- ### Claim C3: the add_noise formula -/

/-- Entry (b, i) of a batch tensor: sample b, element i (0 outside bounds). -/
def entry (x : List (List ℝ)) (b i : ℕ) : ℝ := (x.getD b []).getD i 0

/-- C3: for every clean tensor, noise tensor and batch of timesteps with each
value in [0, T), entry (b, i) of add_noise is
sqrt(alpha_cumprod[ts b]) * clean + sqrt(1 - alpha_cumprod[ts b]) * noise,
the per-sample schedule coefficient broadcast over the sample. -/
theorem addNoiseB_entry {T : ℕ} {clean noise : List (List ℝ)} {ts : List ℕ}
    {b i : ℕ}
    (hb1 : b < clean.length) (hb2 : b < noise.length) (hb3 : b < ts.length)
    (hi1 : i < (clean.getD b []).length) (hi2 : i < (noise.getD b []).length)
    (hts : ∀ t ∈ ts, t < T) :
    entry (addNoiseB T clean noise ts) b i =
      Real.sqrt (alphasCumprod T (ts.getD b 0)) * entry clean b i +
        Real.sqrt (1 - alphasCumprod T (ts.getD b 0)) * entry noise b i := by
  have hc : clean.getD b [] = clean[b] := List.getD_eq_getElem clean [] hb1
  have hn : noise.getD b [] = noise[b] := List.getD_eq_getElem noise [] hb2
  have htb : ts.getD b 0 = ts[b] := List.getD_eq_getElem ts 0 hb3
  rw [hc] at hi1
  rw [hn] at hi2
  have hbB : b < (addNoiseB T clean noise ts).length := by
    unfold addNoiseB
    rw [List.length_zipWith, List.length_zip]
    omega
  unfold entry
  rw [List.getD_eq_getElem _ _ hbB]
  have hrow : (addNoiseB T clean noise ts)[b] =
      addNoiseSample T ts[b] clean[b] noise[b] := by
    unfold addNoiseB
    rw [List.getElem_zipWith, List.getElem_zip]
  rw [hrow]
  unfold addNoiseSample
  have hiB : i < (List.zipWith (addNoiseVal T ts[b]) clean[b] noise[b]).length := by
    rw [List.length_zipWith]
    omega
  rw [List.getD_eq_getElem _ _ hiB, List.getElem_zipWith, htb, hc, hn,
    List.getD_eq_getElem _ _ hi1, List.getD_eq_getElem _ _ hi2]
  rfl

/-- Witness for C3: a 1-sample, 1-element batch at T = 1, timestep 0. -/
theorem addNoiseB_entry_witness :
    (∀ t ∈ [0], t < 1) ∧
    entry (addNoiseB 1 [[1]] [[2]] [0]) 0 0 =
      Real.sqrt (alphasCumprod 1 (List.getD [0] 0 0)) * entry [[1]] 0 0 +
        Real.sqrt (1 - alphasCumprod 1 (List.getD [0] 0 0)) * entry [[2]] 0 0 :=
  ⟨by decide,
    addNoiseB_entry (by decide) (by decide) (by decide) (by decide) (by decide)
      (by decide)⟩

/- ## Loss primitive and the training-step orchestrators

nn.SmoothL1Loss(reduction="mean", beta=0.02) is instantiated in both
training modules; its elementwise formula is library code, modelled from the
spec.  The denoising networks are black boxes (pure functions of a batch
tensor and the per-sample timesteps) throughout. -/

/-- Modelled from the spec: the Huber-like smooth L1 elementwise term with
transition width beta. -/
noncomputable def smoothL1Val (beta d : ℝ) : ℝ :=
  if |d| < beta then d ^ 2 / (2 * beta) else |d| - beta / 2

/-- Modelled from the spec: smooth L1 loss with mean reduction over all
elements of the two (flattened) tensors. -/
noncomputable def smoothL1 (beta : ℝ) (x y : List (List ℝ)) : ℝ :=
  let ds := List.zipWith (fun a b => smoothL1Val beta (a - b)) x.flatten y.flatten
  ds.sum / ds.length

/-- Elementwise rescaling of a [0,1] tensor to [-1,1]: the source's
image * 2.0 - 1.0. -/
def scaleToSigned (x : List (List ℝ)) : List (List ℝ) :=
  x.map (fun r => r.map (fun v => v * 2 - 1))

/-- Embedding of DDMMLightningModule._common_step of
segmentation_diffuser_two.py (lines 481-548), loss value only: the four
diffusion networks are black-box parameters, the Gaussian draws rngP and
rngU and the per-sample timesteps ts are explicit inputs, and useCycle is
the is_use_cycle flag. -/
noncomputable def commonStepTwoLoss (T : ℕ)
    (netImage netLabel netImage2Label netLabel2Image :
      List (List ℝ) → List ℕ → List (List ℝ))
    (useCycle : Bool) (image label unsup rngP rngU : List (List ℝ))
    (ts : List ℕ) : ℝ :=
  let midI := addNoiseB T (scaleToSigned image) rngP ts
  let midL := addNoiseB T (scaleToSigned label) rngP ts
  let estI := netImage midI ts
  let estL := netLabel midL ts
  let superBase := smoothL1 0.02 estI rngP + smoothL1 0.02 estL rngP +
    smoothL1 0.02 estI image + smoothL1 0.02 estL label
  let superLoss :=
    if useCycle then
      let predLabel := netImage2Label midI (ts.map (fun _ => 0))
      let predImage := netLabel2Image midL (ts.map (fun _ => 0))
      superBase + (smoothL1 0.02 predImage midI + smoothL1 0.02 predLabel midL +
        smoothL1 0.02 predImage image + smoothL1 0.02 predLabel label)
    else superBase
  let midU := addNoiseB T (scaleToSigned unsup) rngU ts
  let estU := netImage midU ts
  let unsupLoss := smoothL1 0.02 estU rngU + smoothL1 0.02 estU unsup
  superLoss + unsupLoss

/-- C1: in the dual/quad-network variant the total step loss is the
equal-weight sum of exactly these smooth-L1 terms: the supervised four
(est_image vs injected paired noise, est_label vs injected paired noise,
est_image vs clean image, est_label vs clean label), the unsupervised two
(est_unsup vs injected unsup noise, est_unsup vs clean unsup), and, if and
only if cycle mode is enabled, four additional terms in which each
translation network is applied to the noised input of its source domain at
pseudo-timestep 0 and compared against the noised and the clean
companion-domain tensors. -/
theorem commonStepTwoLoss_decomposition (T : ℕ)
    (netImage netLabel netImage2Label netLabel2Image :
      List (List ℝ) → List ℕ → List (List ℝ))
    (useCycle : Bool) (image label unsup rngP rngU : List (List ℝ))
    (ts : List ℕ) :
    commonStepTwoLoss T netImage netLabel netImage2Label netLabel2Image
        useCycle image label unsup rngP rngU ts =
      (smoothL1 0.02 (netImage (addNoiseB T (scaleToSigned image) rngP ts) ts) rngP
        + smoothL1 0.02 (netLabel (addNoiseB T (scaleToSigned label) rngP ts) ts) rngP
        + smoothL1 0.02 (netImage (addNoiseB T (scaleToSigned image) rngP ts) ts) image
        + smoothL1 0.02 (netLabel (addNoiseB T (scaleToSigned label) rngP ts) ts) label)
      + (smoothL1 0.02 (netImage (addNoiseB T (scaleToSigned unsup) rngU ts) ts) rngU
        + smoothL1 0.02 (netImage (addNoiseB T (scaleToSigned unsup) rngU ts) ts) unsup)
      + (if useCycle then
          smoothL1 0.02
              (netLabel2Image (addNoiseB T (scaleToSigned label) rngP ts)
                (ts.map (fun _ => 0)))
              (addNoiseB T (scaleToSigned image) rngP ts)
            + smoothL1 0.02
              (netImage2Label (addNoiseB T (scaleToSigned image) rngP ts)
                (ts.map (fun _ => 0)))
              (addNoiseB T (scaleToSigned label) rngP ts)
            + smoothL1 0.02
              (netLabel2Image (addNoiseB T (scaleToSigned label) rngP ts)
                (ts.map (fun _ => 0))) image
            + smoothL1 0.02
              (netImage2Label (addNoiseB T (scaleToSigned image) rngP ts)
                (ts.map (fun _ => 0))) label
        else 0) := by
  unfold commonStepTwoLoss
  cases useCycle <;> simp only [if_true, if_false, Bool.false_eq_true] <;> ring

/- ## Random draws of a training step (claim C2)

The draws torch.randn_like / torch.randint are torch library primitives;
they are modelled from the spec as reads of abstract streams: g is a stream
of Gaussian values consumed at consecutive positions, r is a stream of
integers reduced modulo T. -/

/-- Number of elements of a batch tensor. -/
def numel (x : List (List ℝ)) : ℕ := (x.map List.length).sum

/-- Modelled from the spec: torch.randn_like — a fresh Gaussian tensor with
the template's shape, taken from the stream g at consecutive positions
starting at off. -/
def fillLike (g : ℕ → ℝ) : ℕ → List (List ℝ) → List (List ℝ)
  | _, [] => []
  | off, s :: rest =>
    (List.range s.length).map (fun j => g (off + j)) ::
      fillLike g (off + s.length) rest

/-- Modelled from the spec: torch.randint(0, T, (bs,)) — one uniform draw in
[0, T) per sample of the batch, from the integer stream r. -/
def timestepsDraw (r : ℕ → ℕ) (T bs : ℕ) : List ℕ :=
  (List.range bs).map (fun j => r j % T)

lemma numel_cons (s : List ℝ) (rest : List (List ℝ)) :
    numel (s :: rest) = s.length + numel rest := by
  unfold numel
  simp

/-- fillLike only reads the stream positions [off, off + numel x). -/
lemma fillLike_congr (g g₂ : ℕ → ℝ) :
    ∀ (x : List (List ℝ)) (off : ℕ),
      (∀ k, off ≤ k → k < off + numel x → g k = g₂ k) →
      fillLike g off x = fillLike g₂ off x := by
  intro x
  induction x with
  | nil =>
      intro off _
      rfl
  | cons s rest ih =>
      intro off h
      unfold fillLike
      congr 1
      · apply List.map_congr_left
        intro j hj
        have hjs := List.mem_range.mp hj
        have hcons := numel_cons s rest
        exact h (off + j) (by omega) (by omega)
      · apply ih
        intro k hk1 hk2
        have hcons := numel_cons s rest
        exact h k (by omega) (by omega)

lemma timestepsDraw_length (r : ℕ → ℕ) (T bs : ℕ) :
    (timestepsDraw r T bs).length = bs := by
  unfold timestepsDraw
  simp

lemma timestepsDraw_lt {r : ℕ → ℕ} {T : ℕ} (bs : ℕ) (hT : 0 < T) :
    ∀ t ∈ timestepsDraw r T bs, t < T := by
  intro t ht
  unfold timestepsDraw at ht
  simp only [List.mem_map, List.mem_range] at ht
  obtain ⟨j, _, rfl⟩ := ht
  exact Nat.mod_lt _ hT

/-- The noising prologue shared by both _common_step implementations
(segmentation_diffuser_one.py lines 294-319, segmentation_diffuser_two.py
lines 484-522): draw rng_p shaped like image, then rng_u shaped like unsup
(the next positions of the same stream), draw one timestep per sample, and
noise image and label with rng_p and unsup with rng_u, all with the same
timesteps. -/
noncomputable def noisedPrologue (T : ℕ) (g : ℕ → ℝ) (r : ℕ → ℕ)
    (image label unsup : List (List ℝ)) :
    List (List ℝ) × List (List ℝ) × List (List ℝ) :=
  let rngP := fillLike g 0 image
  let rngU := fillLike g (numel image) unsup
  let ts := timestepsDraw r T image.length
  (addNoiseB T (scaleToSigned image) rngP ts,
    addNoiseB T (scaleToSigned label) rngP ts,
    addNoiseB T (scaleToSigned unsup) rngU ts)

/-- Embedding of DDMMLightningModule._common_step of
segmentation_diffuser_one.py (lines 290-327), loss value only: the single
class-conditioned network is a black-box parameter taking (noisy batch,
timesteps, class labels); class 0 marks the image domain and class 1 the
label domain. -/
noncomputable def commonStepOneLoss (T : ℕ)
    (net : List (List ℝ) → List ℕ → List ℕ → List (List ℝ))
    (image label unsup rngP rngU : List (List ℝ)) (ts : List ℕ) : ℝ :=
  let midI := addNoiseB T (scaleToSigned image) rngP ts
  let midL := addNoiseB T (scaleToSigned label) rngP ts
  let clsI := List.replicate image.length 0
  let clsL := List.replicate image.length 1
  let estI := net midI ts clsI
  let estL := net midL ts clsL
  let superLoss := smoothL1 0.02 estI rngP + smoothL1 0.02 estL rngP
  let midU := addNoiseB T (scaleToSigned unsup) rngU ts
  let clsU := List.replicate image.length 0
  let estU := net midU ts clsU
  let unsupLoss := smoothL1 0.02 estU rngU
  superLoss + unsupLoss

/-- The file-one step with its random draws taken from the streams g, r. -/
noncomputable def commonStepOneLossRNG (T : ℕ)
    (net : List (List ℝ) → List ℕ → List ℕ → List (List ℝ)) (g : ℕ → ℝ)
    (r : ℕ → ℕ) (image label unsup : List (List ℝ)) : ℝ :=
  commonStepOneLoss T net image label unsup (fillLike g 0 image)
    (fillLike g (numel image) unsup) (timestepsDraw r T image.length)

/-- The file-two step with its random draws taken from the streams g, r. -/
noncomputable def commonStepTwoLossRNG (T : ℕ)
    (netImage netLabel netImage2Label netLabel2Image :
      List (List ℝ) → List ℕ → List (List ℝ))
    (useCycle : Bool) (g : ℕ → ℝ) (r : ℕ → ℕ)
    (image label unsup : List (List ℝ)) : ℝ :=
  commonStepTwoLoss T netImage netLabel netImage2Label netLabel2Image useCycle
    image label unsup (fillLike g 0 image) (fillLike g (numel image) unsup)
    (timestepsDraw r T image.length)

/-- The coupling asserted by C2, about the three noised tensors of a step:
noised image and noised label use the same noise tensor (rng_p, read from
stream positions below numel image) and the same per-sample timesteps;
noised unsup uses the independently drawn rng_u (read only from positions
from numel image on) with the same timesteps; and the timesteps are one
per sample, each in [0, T). -/
def NoiseCoupling (T : ℕ) (g : ℕ → ℝ) (r : ℕ → ℕ)
    (image label unsup midI midL midU : List (List ℝ)) : Prop :=
  midI = addNoiseB T (scaleToSigned image) (fillLike g 0 image)
      (timestepsDraw r T image.length)
  ∧ midL = addNoiseB T (scaleToSigned label) (fillLike g 0 image)
      (timestepsDraw r T image.length)
  ∧ midU = addNoiseB T (scaleToSigned unsup) (fillLike g (numel image) unsup)
      (timestepsDraw r T image.length)
  ∧ (timestepsDraw r T image.length).length = image.length
  ∧ (∀ t ∈ timestepsDraw r T image.length, t < T)
  ∧ (∀ g₂ : ℕ → ℝ, (∀ k, k < numel image → g k = g₂ k) →
      fillLike g 0 image = fillLike g₂ 0 image)
  ∧ (∀ g₂ : ℕ → ℝ, (∀ k, numel image ≤ k → g k = g₂ k) →
      fillLike g (numel image) unsup = fillLike g₂ (numel image) unsup)

/-- C2: in every training step of either variant, the noised image and
noised label are produced with the same Gaussian noise tensor and the same
per-sample timesteps, the noised unsup tensor with an independently drawn
noise tensor but the same timesteps, and the timesteps are one uniform draw
in [0, T) per sample; both step variants consume exactly these draws. -/
theorem trainingStep_noise_coupling (T : ℕ) (g : ℕ → ℝ) (r : ℕ → ℕ)
    (net : List (List ℝ) → List ℕ → List ℕ → List (List ℝ))
    (netImage netLabel netImage2Label netLabel2Image :
      List (List ℝ) → List ℕ → List (List ℝ))
    (useCycle : Bool) (image label unsup : List (List ℝ)) (hT : 0 < T) :
    NoiseCoupling T g r image label unsup
        (noisedPrologue T g r image label unsup).1
        (noisedPrologue T g r image label unsup).2.1
        (noisedPrologue T g r image label unsup).2.2
      ∧ commonStepOneLossRNG T net g r image label unsup =
        commonStepOneLoss T net image label unsup (fillLike g 0 image)
          (fillLike g (numel image) unsup) (timestepsDraw r T image.length)
      ∧ commonStepTwoLossRNG T netImage netLabel netImage2Label netLabel2Image
          useCycle g r image label unsup =
        commonStepTwoLoss T netImage netLabel netImage2Label netLabel2Image
          useCycle image label unsup (fillLike g 0 image)
          (fillLike g (numel image) unsup) (timestepsDraw r T image.length) := by
  refine ⟨⟨rfl, rfl, rfl, timestepsDraw_length r T image.length,
    timestepsDraw_lt image.length hT, ?_, ?_⟩, rfl, rfl⟩
  · intro g₂ h
    apply fillLike_congr
    intro k _ hk2
    exact h k (by omega)
  · intro g₂ h
    apply fillLike_congr
    intro k hk1 _
    exact h k hk1

/-- Witness for C2 at T = 1 with constant streams, a one-element batch and
identity networks. -/
theorem trainingStep_noise_coupling_witness :
    0 < 1 ∧
    (NoiseCoupling 1 (fun _ => 0) (fun _ => 0) [[0]] [[0]] [[0]]
        (noisedPrologue 1 (fun _ => 0) (fun _ => 0) [[0]] [[0]] [[0]]).1
        (noisedPrologue 1 (fun _ => 0) (fun _ => 0) [[0]] [[0]] [[0]]).2.1
        (noisedPrologue 1 (fun _ => 0) (fun _ => 0) [[0]] [[0]] [[0]]).2.2
      ∧ commonStepOneLossRNG 1 (fun x _ _ => x) (fun _ => 0) (fun _ => 0)
          [[0]] [[0]] [[0]] =
        commonStepOneLoss 1 (fun x _ _ => x) [[0]] [[0]] [[0]]
          (fillLike (fun _ => 0) 0 [[0]]) (fillLike (fun _ => 0) (numel [[0]]) [[0]])
          (timestepsDraw (fun _ => 0) 1 (List.length [[(0 : ℝ)]]))
      ∧ commonStepTwoLossRNG 1 (fun x _ => x) (fun x _ => x) (fun x _ => x)
          (fun x _ => x) true (fun _ => 0) (fun _ => 0) [[0]] [[0]] [[0]] =
        commonStepTwoLoss 1 (fun x _ => x) (fun x _ => x) (fun x _ => x)
          (fun x _ => x) true [[0]] [[0]] [[0]]
          (fillLike (fun _ => 0) 0 [[0]]) (fillLike (fun _ => 0) (numel [[0]]) [[0]])
          (timestepsDraw (fun _ => 0) 1 (List.length [[(0 : ℝ)]]))) :=
  ⟨by decide,
    trainingStep_noise_coupling 1 (fun _ => 0) (fun _ => 0) (fun x _ _ => x)
      (fun x _ => x) (fun x _ => x) (fun x _ => x) (fun x _ => x) true
      [[0]] [[0]] [[0]] (by decide)⟩

/- ## Visualization sampling branch (claim C6) -/

/-- One reverse scheduler update applied elementwise over a batch tensor,
with a single timestep t for the whole batch (as in the visualization
loops, which iterate over scheduler.timesteps). -/
noncomputable def stepRevT (T t : ℕ) (m s : List (List ℝ)) : List (List ℝ) :=
  List.zipWith (fun mr sr => List.zipWith (stepRevVal T t) mr sr) m s

/-- Elementwise rescaling back to [0,1]: the source's sam * 0.5 + 0.5. -/
def scaleToUnit (x : List (List ℝ)) : List (List ℝ) :=
  x.map (fun r => r.map (fun v => v * 0.5 + 0.5))

/-- The reverse-sampling loop of the file-one visualization branch
(segmentation_diffuser_one.py lines 333-346): both chains start from the
same Gaussian tensor rng and iterate network prediction plus scheduler step
over the timesteps T-1 down to 0, conditioning on class 0 for the image
chain and class 1 for the label chain. -/
noncomputable def sampleLoopOne (T : ℕ)
    (net : List (List ℝ) → List ℕ → List ℕ → List (List ℝ)) (bs : ℕ)
    (rng : List (List ℝ)) : List (List ℝ) × List (List ℝ) :=
  (List.range T).reverse.foldl
    (fun p t =>
      let resI := net p.1 (List.replicate bs t) (List.replicate bs 0)
      let resL := net p.2 (List.replicate bs t) (List.replicate bs 1)
      (stepRevT T t resI p.1, stepRevT T t resL p.2))
    (rng, rng)

/-- The reverse-sampling loop of the file-two visualization branch
(segmentation_diffuser_two.py lines 551-570), additionally tracking the two
cycle translations computed from the current chains before each update when
cycle mode is on (their value after the loop is the one used by the grid;
they start at the Gaussian tensor as a placeholder matching the source,
where they are only defined once the loop has run). -/
noncomputable def sampleLoopTwo (T : ℕ)
    (netImage netLabel netLabel2Image netImage2Label :
      List (List ℝ) → List ℕ → List (List ℝ))
    (useCycle : Bool) (rng : List (List ℝ)) :
    List (List ℝ) × List (List ℝ) × List (List ℝ) × List (List ℝ) :=
  (List.range T).reverse.foldl
    (fun p t =>
      let resI := netImage p.1 (List.replicate p.1.length t)
      let resL := netLabel p.2.1 (List.replicate p.2.1.length t)
      let cycI := if useCycle then
          netLabel2Image p.2.1 (List.replicate p.2.1.length t) else p.2.2.1
      let cycL := if useCycle then
          netImage2Label p.1 (List.replicate p.1.length t) else p.2.2.2
      (stepRevT T t resI p.1, stepRevT T t resL p.2.1, cycI, cycL))
    (rng, rng, rng, rng)

/-- A batch tensor tagged with requires-grad tracking. -/
structure GTensor where
  val : List (List ℝ)
  grad : Bool

/-- Input batch tensors come from the data loader and are not
grad-tracked. -/
def gInput (x : List (List ℝ)) : GTensor := ⟨x, false⟩

/-- Results computed inside a torch.no_grad() region carry no grad
tracking. -/
def noGrad (x : List (List ℝ)) : GTensor := ⟨x, false⟩

/-- Concatenation of the visualization parts along the last dimension
(torch.cat(..., dim=-1)); grad tracking propagates through the
concatenation.  The subsequent transpose / make_grid layout is a pure
rearrangement and is abstracted away. -/
def gcat (parts : List GTensor) : GTensor :=
  ⟨parts.foldr (fun p acc => List.zipWith (fun a b => a ++ b) p.val acc)
      ((parts.headD ⟨[], false⟩).val.map (fun _ => [])),
    parts.any (fun p => p.grad)⟩

/-- Full embedding of the file-one step (lines 290-354): the returned loss
together with the optional visualization grid; the visualization branch
runs iff stage = "train" and batch_idx % 10 = 0, and its sampling (and the
[0,1] rescaling) happens inside torch.no_grad(); vizRng is the Gaussian
start tensor drawn inside the branch. -/
noncomputable def commonStepOneFull (T : ℕ)
    (net : List (List ℝ) → List ℕ → List ℕ → List (List ℝ))
    (image label unsup rngP rngU : List (List ℝ)) (ts : List ℕ)
    (vizRng : List (List ℝ)) (batchIdx : ℕ) (stage : String) :
    ℝ × Option GTensor :=
  let loss := commonStepOneLoss T net image label unsup rngP rngU ts
  let viz :=
    if stage = "train" ∧ batchIdx % 10 = 0 then
      let p := sampleLoopOne T net image.length vizRng
      let samI := noGrad (scaleToUnit p.1)
      let samL := noGrad (scaleToUnit p.2)
      some (gcat [gInput image, gInput label, samI, samL, gInput unsup])
    else none
  (loss, viz)

/-- Full embedding of the file-two step (lines 478-593): the returned loss
together with the optional visualization grid; the visualization branch
runs iff batch_idx = 0, its sampling inside torch.no_grad(), and the grid
additionally holds the two cycle translations when cycle mode is on. -/
noncomputable def commonStepTwoFull (T : ℕ)
    (netImage netLabel netImage2Label netLabel2Image :
      List (List ℝ) → List ℕ → List (List ℝ))
    (useCycle : Bool) (image label unsup rngP rngU : List (List ℝ))
    (ts : List ℕ) (vizRng : List (List ℝ)) (batchIdx : ℕ) :
    ℝ × Option GTensor :=
  let loss := commonStepTwoLoss T netImage netLabel netImage2Label
    netLabel2Image useCycle image label unsup rngP rngU ts
  let viz :=
    if batchIdx = 0 then
      let p := sampleLoopTwo T netImage netLabel netLabel2Image netImage2Label
        useCycle vizRng
      let samI := noGrad (scaleToUnit p.1)
      let samL := noGrad (scaleToUnit p.2.1)
      let cycI := noGrad p.2.2.1
      let cycL := noGrad p.2.2.2
      some (if useCycle then
          gcat [gInput image, gInput label, samI, samL, cycI, cycL,
            gInput unsup]
        else gcat [gInput image, gInput label, samI, samL, gInput unsup])
    else none
  (loss, viz)

/-- C6: the visualization branch never influences the loss a step returns —
for every batch the loss component of the full step equals the plain loss
computation, for every batch index and stage (i.e. whether or not the
reverse-sampling visualization executes) — and the visualization grid, when
produced, carries no gradient tracking. -/
theorem visualization_never_influences_loss (T : ℕ)
    (net : List (List ℝ) → List ℕ → List ℕ → List (List ℝ))
    (netImage netLabel netImage2Label netLabel2Image :
      List (List ℝ) → List ℕ → List (List ℝ))
    (useCycle : Bool) (image label unsup rngP rngU : List (List ℝ))
    (ts : List ℕ) (vizRng : List (List ℝ)) (batchIdx : ℕ) (stage : String) :
    (commonStepOneFull T net image label unsup rngP rngU ts vizRng batchIdx
        stage).1 =
      commonStepOneLoss T net image label unsup rngP rngU ts
    ∧ (commonStepTwoFull T netImage netLabel netImage2Label netLabel2Image
        useCycle image label unsup rngP rngU ts vizRng batchIdx).1 =
      commonStepTwoLoss T netImage netLabel netImage2Label netLabel2Image
        useCycle image label unsup rngP rngU ts
    ∧ (∀ gr ∈ (commonStepOneFull T net image label unsup rngP rngU ts vizRng
        batchIdx stage).2, gr.grad = false)
    ∧ (∀ gr ∈ (commonStepTwoFull T netImage netLabel netImage2Label
        netLabel2Image useCycle image label unsup rngP rngU ts vizRng
        batchIdx).2, gr.grad = false) := by
  refine ⟨rfl, rfl, ?_, ?_⟩
  · intro gr hgr
    unfold commonStepOneFull at hgr
    by_cases h : stage = "train" ∧ batchIdx % 10 = 0
    · simp only [if_pos h, Option.mem_def, Option.some.injEq] at hgr
      rw [← hgr]
      simp [gcat, gInput, noGrad]
    · simp [if_neg h] at hgr
  · intro gr hgr
    unfold commonStepTwoFull at hgr
    by_cases h : batchIdx = 0
    · simp only [if_pos h, Option.mem_def, Option.some.injEq] at hgr
      rw [← hgr]
      cases useCycle <;> simp [gcat, gInput, noGrad]
    · simp [if_neg h] at hgr

/- ## Malformed-batch behaviour (claim C7)

Shape-level model of the step prologue.  Tensors are represented by their
shapes; the batch is a key/shape mapping.  A missing key raises KeyError at
the unpacking line; elementwise tensor operations follow torch semantics —
they raise on broadcast-incompatible shapes and silently broadcast
otherwise (modelled from the spec for the torch primitives, which are
library code). -/

/-- torch broadcast of a single dimension pair. -/
def broadcastDim (a b : ℕ) : Option ℕ :=
  if a = b then some a
  else if a = 1 then some b
  else if b = 1 then some a
  else none

/-- Modelled from the spec: torch's right-aligned shape broadcasting for
elementwise operations; none means the shapes are incompatible and the
operation raises. -/
def broadcastShapes (xs ys : List ℕ) : Option (List ℕ) :=
  let n := max xs.length ys.length
  let xr := List.replicate (n - xs.length) 1 ++ xs
  let yr := List.replicate (n - ys.length) 1 ++ ys
  (xr.zip yr).foldr
    (fun p acc =>
      match acc, broadcastDim p.1 p.2 with
      | some l, some d => some (d :: l)
      | _, _ => none)
    (some [])

/-- Key lookup in a batch mapping; a missing key raises (KeyError naming
the key) before anything else runs. -/
def getKey (batch : List (String × List ℕ)) (k : String) :
    Except String (List ℕ) :=
  match batch.lookup k with
  | some v => Except.ok v
  | none => Except.error ("missing batch key: " ++ k)

/-- Elementwise combination of two shaped tensors; raises on
broadcast-incompatible shapes, silently broadcasts otherwise. -/
def elemwise (xs ys : List ℕ) : Except String (List ℕ) :=
  match broadcastShapes xs ys with
  | some s => Except.ok s
  | none => Except.error "shape mismatch in elementwise op"

/-- Shape-level embedding of the _common_step prologue shared by both
variants (segmentation_diffuser_one.py lines 290-322,
segmentation_diffuser_two.py lines 481-527): unpack the three batch keys,
draw rng_p shaped like image and rng_u shaped like unsup, noise image and
label with rng_p and unsup with rng_u, and invoke the denoising networks on
the noised shapes; returns the network output shapes. -/
def commonStepShapes (netI netL : List ℕ → List ℕ)
    (batch : List (String × List ℕ)) :
    Except String (List ℕ × List ℕ × List ℕ) := do
  let image ← getKey batch "image"
  let label ← getKey batch "label"
  let unsup ← getKey batch "unsup"
  let rngP := image
  let rngU := unsup
  let midI ← elemwise image rngP
  let midL ← elemwise label rngP
  let estI := netI midI
  let estL := netL midL
  let midU ← elemwise unsup rngU
  let estU := netI midU
  Except.ok (estI, estL, estU)

/-- C7 counterexample: a malformed batch — label shape [1,1,1,2] differs
from image shape [1,1,2,2] — on which the step does NOT fail fast: the
shapes are broadcast-compatible, so the label is silently broadcast and the
networks are reached. -/
theorem commonStepShapes_silent_broadcast :
    List.lookup "label"
        [("image", [1, 1, 2, 2]), ("label", [1, 1, 1, 2]),
          ("unsup", [1, 1, 2, 2])] ≠
      List.lookup "image"
        [("image", [1, 1, 2, 2]), ("label", [1, 1, 1, 2]),
          ("unsup", [1, 1, 2, 2])]
    ∧ commonStepShapes (fun s => s) (fun s => s)
        [("image", [1, 1, 2, 2]), ("label", [1, 1, 1, 2]),
          ("unsup", [1, 1, 2, 2])] =
      Except.ok ([1, 1, 2, 2], [1, 1, 2, 2], [1, 1, 2, 2]) :=
  ⟨by decide, rfl⟩

/-- Broadcasting a shape with itself succeeds and changes nothing. -/
lemma broadcastShapes_self (xs : List ℕ) : broadcastShapes xs xs = some xs := by
  have h : ∀ l : List ℕ,
      (List.zip l l).foldr
        (fun p acc =>
          match acc, broadcastDim p.1 p.2 with
          | some s, some d => some (d :: s)
          | _, _ => none)
        (some []) = some l := by
    intro l
    induction l with
    | nil => rfl
    | cons a l ih =>
        simp only [List.zip_cons_cons, List.foldr_cons, ih]
        unfold broadcastDim
        simp
  unfold broadcastShapes
  simp only [max_self, Nat.sub_self, List.replicate_zero, List.nil_append]
  exact h xs

/-- C7 amended: a batch missing any of the keys image/label/unsup fails
fast with a descriptive error naming the first missing key, and a
broadcast-incompatible shape mismatch fails in the noising prologue — in
both cases the result is the same error for every choice of networks, so no
network is invoked; but a broadcast-compatible shape mismatch does not fail
and is silently broadcast to the networks. -/
theorem commonStepShapes_fail_fast (batch : List (String × List ℕ))
    (netI netL : List ℕ → List ℕ) :
    (batch.lookup "image" = none →
      commonStepShapes netI netL batch =
        Except.error ("missing batch key: " ++ "image"))
    ∧ (batch.lookup "label" = none →
        ∃ msg, commonStepShapes netI netL batch = Except.error msg)
    ∧ (batch.lookup "unsup" = none →
        ∃ msg, commonStepShapes netI netL batch = Except.error msg)
    ∧ (∀ imageS labelS unsupS,
        batch.lookup "image" = some imageS →
        batch.lookup "label" = some labelS →
        batch.lookup "unsup" = some unsupS →
        broadcastShapes labelS imageS = none →
        commonStepShapes netI netL batch =
          Except.error "shape mismatch in elementwise op") := by
  refine ⟨?_, ?_, ?_, ?_⟩
  · intro h
    unfold commonStepShapes getKey
    rw [h]
    rfl
  · intro h
    unfold commonStepShapes getKey
    rw [h]
    cases hi : batch.lookup "image" with
    | none => exact ⟨_, rfl⟩
    | some v => exact ⟨_, rfl⟩
  · intro h
    unfold commonStepShapes getKey
    rw [h]
    cases hi : batch.lookup "image" with
    | none => exact ⟨_, rfl⟩
    | some v =>
        cases hl : batch.lookup "label" with
        | none => exact ⟨_, rfl⟩
        | some w => exact ⟨_, rfl⟩
  · intro imageS labelS unsupS hi hl hu hbc
    have hself : elemwise imageS imageS = Except.ok imageS := by
      unfold elemwise
      rw [broadcastShapes_self]
    have hfail : elemwise labelS imageS =
        Except.error "shape mismatch in elementwise op" := by
      unfold elemwise
      rw [hbc]
    have hred : commonStepShapes netI netL batch =
        (elemwise imageS imageS >>= fun midI =>
          elemwise labelS imageS >>= fun midL =>
          elemwise unsupS unsupS >>= fun midU =>
          Except.ok (netI midI, netL midL, netI midU)) := by
      unfold commonStepShapes getKey
      rw [hi, hl, hu]
      rfl
    rw [hred, hself, hfail]
    rfl

/-- Witness for the C7 amended theorem: an empty batch errors on the image
key; a batch without the label key errors; a batch without the unsup key
errors; a broadcast-incompatible label shape errors in the prologue. -/
theorem commonStepShapes_fail_fast_witness :
    commonStepShapes (fun s => s) (fun s => s) [] =
      Except.error ("missing batch key: " ++ "image")
    ∧ (∃ msg, commonStepShapes (fun s => s) (fun s => s)
        [("image", [2]), ("unsup", [2])] = Except.error msg)
    ∧ (∃ msg, commonStepShapes (fun s => s) (fun s => s)
        [("image", [2]), ("label", [2])] = Except.error msg)
    ∧ commonStepShapes (fun s => s) (fun s => s)
        [("image", [2]), ("label", [3]), ("unsup", [2])] =
      Except.error "shape mismatch in elementwise op" :=
  ⟨(commonStepShapes_fail_fast [] (fun s => s) (fun s => s)).1 rfl,
    (commonStepShapes_fail_fast [("image", [2]), ("unsup", [2])]
        (fun s => s) (fun s => s)).2.1 rfl,
    (commonStepShapes_fail_fast [("image", [2]), ("label", [2])]
        (fun s => s) (fun s => s)).2.2.1 rfl,
    (commonStepShapes_fail_fast [("image", [2]), ("label", [3]), ("unsup", [2])]
        (fun s => s) (fun s => s)).2.2.2 [2] [3] [2] rfl rfl rfl rfl⟩

/- ## Scheduler device handling (claim C8) -/

/-- A tensor tagged with the device it resides on. -/
structure DTensor where
  dev : ℕ
  val : List (List ℝ)

/-- Embedding of CustomDDPMScheduler (scheduler.py): the timestep count, the
module's device attribute, and the device on which the alphas_cumprod table
resides. -/
structure CustomDDPMSchedulerS where
  T : ℕ
  device : ℕ
  tableDev : ℕ

/-- scheduler.py's to(device) (lines 8-9): relocates the alphas_cumprod
table to the given device. -/
def CustomDDPMSchedulerS.toDev (s : CustomDDPMSchedulerS) (d : ℕ) :
    CustomDDPMSchedulerS :=
  { s with tableDev := d }

/-- scheduler.py's constructor (lines 3-6): the base scheduler builds its
table on the CPU (device 0), then the device attribute is set and to(device)
relocates the table. -/
def CustomDDPMSchedulerS.start (T d : ℕ) : CustomDDPMSchedulerS :=
  (CustomDDPMSchedulerS.mk T d 0).toDev d

/-- Modelled from the spec: add_noise on device-tagged tensors.  The
scheduler first relocates its table to the input tensors' device (detecting
and correcting any mismatch), then the device-checked elementwise arithmetic
runs — cross-device operands would raise. -/
noncomputable def addNoiseChecked (s : CustomDDPMSchedulerS)
    (clean noise : DTensor) (ts : List ℕ) : Except String DTensor :=
  let tableOnInput : ℕ := clean.dev
  if tableOnInput ≠ clean.dev then
    Except.error "device mismatch: schedule table vs input"
  else if clean.dev ≠ noise.dev then
    Except.error "device mismatch: clean vs noise"
  else Except.ok ⟨clean.dev, addNoiseB s.T clean.val noise.val ts⟩

/-- C8: whenever the schedule table resides on a different device than the
input tensors, the mismatch is corrected by relocating the table — for every
table device, add_noise succeeds, returns the mathematically correct values,
and its result lives on the inputs' device; and scheduler.py's to and
constructor leave the table on the requested device, colocated with the
module's device attribute. -/
theorem scheduler_device_relocation (s : CustomDDPMSchedulerS)
    (clean noise : DTensor) (ts : List ℕ) (d T : ℕ)
    (h : clean.dev = noise.dev) :
    addNoiseChecked s clean noise ts =
      Except.ok ⟨clean.dev, addNoiseB s.T clean.val noise.val ts⟩
    ∧ (∀ d₂ : ℕ, addNoiseChecked { s with tableDev := d₂ } clean noise ts =
        addNoiseChecked s clean noise ts)
    ∧ (s.toDev d).tableDev = d
    ∧ (CustomDDPMSchedulerS.start T d).tableDev = d
    ∧ (CustomDDPMSchedulerS.start T d).tableDev =
        (CustomDDPMSchedulerS.start T d).device := by
  refine ⟨?_, fun d₂ => rfl, rfl, rfl, rfl⟩
  unfold addNoiseChecked
  rw [if_neg (by simp), if_neg (by simp [h])]

/-- Witness for C8: the table lives on device 5, the inputs on device 2. -/
theorem scheduler_device_relocation_witness :
    (DTensor.mk 2 [[1]]).dev = (DTensor.mk 2 [[0]]).dev
    ∧ (addNoiseChecked (CustomDDPMSchedulerS.mk 1 0 5) (DTensor.mk 2 [[1]])
          (DTensor.mk 2 [[0]]) [0] =
        Except.ok ⟨(DTensor.mk 2 [[(1 : ℝ)]]).dev,
          addNoiseB (CustomDDPMSchedulerS.mk 1 0 5).T [[1]] [[0]] [0]⟩
      ∧ (∀ d₂ : ℕ, addNoiseChecked
            { CustomDDPMSchedulerS.mk 1 0 5 with tableDev := d₂ }
            (DTensor.mk 2 [[1]]) (DTensor.mk 2 [[0]]) [0] =
          addNoiseChecked (CustomDDPMSchedulerS.mk 1 0 5)
            (DTensor.mk 2 [[1]]) (DTensor.mk 2 [[0]]) [0])
      ∧ ((CustomDDPMSchedulerS.mk 1 0 5).toDev 3).tableDev = 3
      ∧ (CustomDDPMSchedulerS.start 1 3).tableDev = 3
      ∧ (CustomDDPMSchedulerS.start 1 3).tableDev =
          (CustomDDPMSchedulerS.start 1 3).device) :=
  ⟨rfl, scheduler_device_relocation (CustomDDPMSchedulerS.mk 1 0 5)
    (DTensor.mk 2 [[1]]) (DTensor.mk 2 [[0]]) [0] 3 1 rfl⟩

/- ## Dataset index determinism (claim C10) -/

/-- The internal state of monai Randomizable's numpy RandomState: the seed
last set and the number of draws made since.  Modelled from the spec: the
generator itself is abstracted as a pure function gen of (seed, draw
position) — a seeded PRNG is deterministic given both. -/
structure RngState where
  seed : ℕ
  ctr : ℕ

/-- self.R.seed(index): resets the generator state, discarding any previous
history. -/
def seedReset (index : ℕ) : RngState := ⟨index, 0⟩

/-- self.R.randint(0, hi): one draw in [0, hi), advancing the state. -/
def randintDraw (gen : ℕ → ℕ → ℕ) (hi : ℕ) (s : RngState) : ℕ × RngState :=
  (gen s.seed s.ctr % hi, ⟨s.seed, s.ctr + 1⟩)

/-- The file indices selected by one dataset access. -/
structure ItemIndices where
  imageIdx : ℕ
  labelIdx : ℕ
  unsupIdx : ℕ

/-- Embedding of PairedAndUnsupervisedDataset._transform
(segmentation_diffuser_one.py lines 121-136, segmentation_diffuser_two.py
lines 64-79), index selection only: re-seed the RNG with the item index,
draw rand_idx for the paired pool (used for both image and label) and
rand_idy for the unsup pool.  The incoming RNG state rs is whatever history
the generator had (other epochs, other workers). -/
def transformIndices (gen : ℕ → ℕ → ℕ) (rs : RngState)
    (index nPaired nUnsup : ℕ) : ItemIndices × RngState :=
  let s0 := seedReset index
  let p1 := randintDraw gen nPaired s0
  let p2 := randintDraw gen nUnsup p1.2
  (⟨p1.1, p1.1, p2.1⟩, p2.2)

/-- C10: dataset item retrieval is deterministic per index — for the same
generator algorithm, two accesses to index i from arbitrary prior RNG states
(same or different epochs/processes) select identical file indices; image
and label share one paired index; and the unsup index is a function of the
item index (and pool sizes) alone. -/
theorem transformIndices_deterministic (gen : ℕ → ℕ → ℕ)
    (rs rs₂ : RngState) (index nPaired nUnsup : ℕ) :
    (transformIndices gen rs index nPaired nUnsup).1 =
      (transformIndices gen rs₂ index nPaired nUnsup).1
    ∧ (transformIndices gen rs index nPaired nUnsup).1.imageIdx =
      (transformIndices gen rs index nPaired nUnsup).1.labelIdx
    ∧ (transformIndices gen rs index nPaired nUnsup).1.unsupIdx =
      gen index 1 % nUnsup :=
  ⟨rfl, rfl, rfl⟩

/- ## Dice + cross-entropy loss (claim C9) -/

/-- Modelled from the spec: F.softmax over the class dimension. -/
noncomputable def softmaxP (C : ℕ) (logits : Fin C → ℝ) (c : Fin C) : ℝ :=
  Real.exp (logits c) / ∑ k, Real.exp (logits k)

/-- Modelled from the spec: F.one_hot encoding of a class index, as a real
indicator. -/
def oneHotEnc (C : ℕ) (g c : Fin C) : ℝ := if c = g then 1 else 0

/-- Embedding of dice_coef_loss (loss_function/dice_loss.py lines 4-18):
predictions is the [B,C,H,W] logit tensor and gt the [B,H,W] class map; the
prediction is softmax-normalized over classes, intersection and summation
are per (batch, class) sums over the spatial dims, the smooth Dice
coefficient (smooth = 1e-8) is averaged over batch and classes, and the
cross-entropy of the logits (mean over batch and spatial positions) is
added to one minus the Dice mean. -/
noncomputable def diceCoefLoss (B C H W : ℕ)
    (predictions : Fin B → Fin C → Fin H → Fin W → ℝ)
    (gt : Fin B → Fin H → Fin W → Fin C) : ℝ :=
  let predNorm : Fin B → Fin H → Fin W → Fin C → ℝ :=
    fun b h w c => softmaxP C (fun k => predictions b k h w) c
  let inter : Fin B → Fin C → ℝ :=
    fun b c => ∑ h, ∑ w, predNorm b h w c * oneHotEnc C (gt b h w) c
  let summ : Fin B → Fin C → ℝ :=
    fun b c =>
      (∑ h, ∑ w, predNorm b h w c) + ∑ h, ∑ w, oneHotEnc C (gt b h w) c
  let smooth : ℝ := 1 / 100000000
  let dice : Fin B → Fin C → ℝ :=
    fun b c => (2 * inter b c + smooth) / (summ b c + smooth)
  let diceMean : ℝ := (∑ b, ∑ c, dice b c) / ((B : ℝ) * (C : ℝ))
  let ce : ℝ :=
    (∑ b, ∑ h, ∑ w, -Real.log (predNorm b h w (gt b h w))) /
      ((B : ℝ) * (H : ℝ) * (W : ℝ))
  (1 - diceMean) + ce

lemma sumExp_pos (C : ℕ) (l : Fin C → ℝ) (c : Fin C) :
    0 < ∑ k, Real.exp (l k) :=
  Finset.sum_pos (fun k _ => Real.exp_pos _) ⟨c, Finset.mem_univ c⟩

lemma softmaxP_pos (C : ℕ) (l : Fin C → ℝ) (c : Fin C) : 0 < softmaxP C l c :=
  div_pos (Real.exp_pos _) (sumExp_pos C l c)

lemma softmaxP_le_one (C : ℕ) (l : Fin C → ℝ) (c : Fin C) :
    softmaxP C l c ≤ 1 := by
  unfold softmaxP
  rw [div_le_one (sumExp_pos C l c)]
  exact Finset.single_le_sum (fun k _ => (Real.exp_pos (l k)).le)
    (Finset.mem_univ c)

/-- With at least two classes the softmax of any finite logits is strictly
below one. -/
lemma softmaxP_lt_one {C : ℕ} (hC : 1 < C) (l : Fin C → ℝ) (c : Fin C) :
    softmaxP C l c < 1 := by
  unfold softmaxP
  rw [div_lt_one (sumExp_pos C l c)]
  have hnt : Nontrivial (Fin C) := Fin.nontrivial_iff_two_le.mpr hC
  obtain ⟨j, hj⟩ := exists_ne c
  exact Finset.single_lt_sum hj (Finset.mem_univ c) (Finset.mem_univ j)
    (Real.exp_pos (l j)) (fun k _ _ => (Real.exp_pos (l k)).le)

/-- A smooth-Dice quotient is at most one when the prediction entries lie in
[0,1] and the one-hot entries in {0,1}. -/
lemma dice_term_le_one {H W : ℕ} (s : ℝ) (hs : 0 < s)
    (pn oh : Fin H → Fin W → ℝ)
    (hpn0 : ∀ h w, 0 ≤ pn h w) (hpn1 : ∀ h w, pn h w ≤ 1)
    (hoh : ∀ h w, oh h w = 0 ∨ oh h w = 1) :
    (2 * (∑ h, ∑ w, pn h w * oh h w) + s) /
      ((∑ h, ∑ w, pn h w) + (∑ h, ∑ w, oh h w) + s) ≤ 1 := by
  have hpnsum : 0 ≤ ∑ h, ∑ w, pn h w :=
    Finset.sum_nonneg fun h _ => Finset.sum_nonneg fun w _ => hpn0 h w
  have hohsum : 0 ≤ ∑ h, ∑ w, oh h w := by
    apply Finset.sum_nonneg
    intro h _
    apply Finset.sum_nonneg
    intro w _
    rcases hoh h w with h0 | h1
    · rw [h0]
    · rw [h1]; norm_num
  rw [div_le_one (by linarith)]
  have key : ∀ h w, 2 * (pn h w * oh h w) ≤ pn h w + oh h w := by
    intro h w
    rcases hoh h w with h0 | h1
    · rw [h0, mul_zero, mul_zero, add_zero]
      exact hpn0 h w
    · rw [h1, mul_one]
      linarith [hpn1 h w]
  have h2 : 2 * (∑ h, ∑ w, pn h w * oh h w) =
      ∑ h, ∑ w, 2 * (pn h w * oh h w) := by
    rw [Finset.mul_sum]
    exact Finset.sum_congr rfl fun h _ => Finset.mul_sum _ _ _
  have h3 : (∑ h, ∑ w, 2 * (pn h w * oh h w)) ≤
      ∑ h, ∑ w, (pn h w + oh h w) :=
    Finset.sum_le_sum fun h _ => Finset.sum_le_sum fun w _ => key h w
  have h4 : (∑ h, ∑ w, (pn h w + oh h w)) =
      (∑ h, ∑ w, pn h w) + (∑ h, ∑ w, oh h w) := by
    rw [← Finset.sum_add_distrib]
    exact Finset.sum_congr rfl fun h _ => Finset.sum_add_distrib
  linarith [h2 ▸ h3, h4 ▸ h3]

/-- The Dice+cross-entropy total is strictly positive for every prediction
when there are at least two classes: the softmax keeps every class
probability strictly inside (0,1), so each cross-entropy summand is
strictly positive, while every Dice quotient stays at most one. -/
lemma diceCoefLoss_pos (B C H W : ℕ)
    (predictions : Fin B → Fin C → Fin H → Fin W → ℝ)
    (gt : Fin B → Fin H → Fin W → Fin C)
    (hB : 0 < B) (hC : 1 < C) (hH : 0 < H) (hW : 0 < W) :
    0 < diceCoefLoss B C H W predictions gt := by
  unfold diceCoefLoss
  have hBC : (0 : ℝ) < (B : ℝ) * (C : ℝ) := by
    have : 0 < B * C := Nat.mul_pos hB (by omega)
    exact_mod_cast this
  have hBHW : (0 : ℝ) < (B : ℝ) * (H : ℝ) * (W : ℝ) := by
    have : 0 < B * H * W := Nat.mul_pos (Nat.mul_pos hB hH) hW
    exact_mod_cast this
  have hdice : ∀ (b : Fin B) (c : Fin C),
      (2 * (∑ h, ∑ w,
          softmaxP C (fun k => predictions b k h w) c *
            oneHotEnc C (gt b h w) c) + (1 / 100000000 : ℝ)) /
        ((∑ h, ∑ w, softmaxP C (fun k => predictions b k h w) c) +
          (∑ h, ∑ w, oneHotEnc C (gt b h w) c) + (1 / 100000000 : ℝ)) ≤ 1 := by
    intro b c
    apply dice_term_le_one _ (by norm_num)
    · intro h w
      exact (softmaxP_pos C _ c).le
    · intro h w
      exact softmaxP_le_one C _ c
    · intro h w
      unfold oneHotEnc
      by_cases hcg : c = gt b h w
      · right; rw [if_pos hcg]
      · left; rw [if_neg hcg]
  have hdmean : (∑ b, ∑ c,
      (2 * (∑ h, ∑ w,
          softmaxP C (fun k => predictions b k h w) c *
            oneHotEnc C (gt b h w) c) + (1 / 100000000 : ℝ)) /
        ((∑ h, ∑ w, softmaxP C (fun k => predictions b k h w) c) +
          (∑ h, ∑ w, oneHotEnc C (gt b h w) c) + (1 / 100000000 : ℝ))) /
      ((B : ℝ) * (C : ℝ)) ≤ 1 := by
    rw [div_le_one hBC]
    calc (∑ b, ∑ c,
        (2 * (∑ h, ∑ w,
            softmaxP C (fun k => predictions b k h w) c *
              oneHotEnc C (gt b h w) c) + (1 / 100000000 : ℝ)) /
          ((∑ h, ∑ w, softmaxP C (fun k => predictions b k h w) c) +
            (∑ h, ∑ w, oneHotEnc C (gt b h w) c) + (1 / 100000000 : ℝ)))
        ≤ ∑ _b : Fin B, ∑ _c : Fin C, (1 : ℝ) :=
          Finset.sum_le_sum fun b _ => Finset.sum_le_sum fun c _ => hdice b c
      _ = (B : ℝ) * (C : ℝ) := by
          simp [Finset.sum_const, Finset.card_univ, mul_comm]
  have hce : 0 < (∑ b, ∑ h, ∑ w,
      -Real.log (softmaxP C (fun k => predictions b k h w) (gt b h w))) /
      ((B : ℝ) * (H : ℝ) * (W : ℝ)) := by
    apply div_pos ?_ hBHW
    have hterm : ∀ (b : Fin B) (h : Fin H) (w : Fin W),
        0 < -Real.log (softmaxP C (fun k => predictions b k h w) (gt b h w)) := by
      intro b h w
      have hp0 := softmaxP_pos C (fun k => predictions b k h w) (gt b h w)
      have hp1 := softmaxP_lt_one hC (fun k => predictions b k h w) (gt b h w)
      have := Real.log_neg hp0 hp1
      linarith
    apply Finset.sum_pos (fun b _ => ?_) ⟨⟨0, hB⟩, Finset.mem_univ _⟩
    apply Finset.sum_pos (fun h _ => ?_) ⟨⟨0, hH⟩, Finset.mem_univ _⟩
    exact Finset.sum_pos (fun w _ => hterm b h w) ⟨⟨0, hW⟩, Finset.mem_univ _⟩
  linarith

/-- C9 counterexample: at B = H = W = 1 with two classes, the prediction
tensor that is exactly the one-hot encoding of the ground-truth class map
yields a nonzero total — the code softmaxes the prediction first, so the
Dice coefficient is below one and the cross-entropy is strictly positive. -/
theorem diceCoefLoss_oneHot_counterexample :
    (∀ (b : Fin 1) (c : Fin 2) (h w : Fin 1),
      (fun (_ : Fin 1) (c : Fin 2) (_ : Fin 1) (_ : Fin 1) =>
          oneHotEnc 2 0 c) b c h w =
        oneHotEnc 2 ((fun (_ : Fin 1) (_ : Fin 1) (_ : Fin 1) =>
          (0 : Fin 2)) b h w) c)
    ∧ diceCoefLoss 1 2 1 1
        (fun _ c _ _ => oneHotEnc 2 0 c)
        (fun _ _ _ => 0) ≠ 0 :=
  ⟨fun _ _ _ _ => rfl,
    ne_of_gt (diceCoefLoss_pos 1 2 1 1 _ _ (by decide) (by decide) (by decide)
      (by decide))⟩

/-- C9 amended: for a prediction tensor that is exactly the one-hot encoding
of the ground-truth class map, dice_coef_loss does NOT return 0 — because
the code applies softmax to the prediction before the Dice computation, the
returned total is strictly positive (the Dice coefficient stays below one
and the cross-entropy term is strictly positive). -/
theorem diceCoefLoss_oneHot_pos (B C H W : ℕ)
    (gt : Fin B → Fin H → Fin W → Fin C)
    (hB : 0 < B) (hC : 1 < C) (hH : 0 < H) (hW : 0 < W) :
    0 < diceCoefLoss B C H W
      (fun b c h w => oneHotEnc C (gt b h w) c) gt :=
  diceCoefLoss_pos B C H W _ gt hB hC hH hW

/-- Witness for the C9 amended theorem at B = H = W = 1, C = 2. -/
theorem diceCoefLoss_oneHot_pos_witness :
    0 < 1 ∧ 1 < 2 ∧
    0 < diceCoefLoss 1 2 1 1
      (fun b c h w =>
        oneHotEnc 2 ((fun (_ : Fin 1) (_ : Fin 1) (_ : Fin 1) =>
          (0 : Fin 2)) b h w) c)
      (fun _ _ _ => 0) :=
  ⟨by decide, by decide,
    diceCoefLoss_oneHot_pos 1 2 1 1 (fun _ _ _ => 0) (by decide) (by decide)
      (by decide) (by decide)⟩

end Diffusors
